import Mathlib

/-!
Verification of the DBSCAN-based anomaly-detection pipeline
(`dbscan_anomaly_detection.py`) and its mock-data producer
(`DataCreationScript.py`).

Numeric values that the Python code holds in floats are embedded as
rationals (`ℚ`) or reals (`ℝ`).  The clustering and scaling components are
invoked from the sklearn library in the script, whose code is not part of
this repository; they are modelled here from the specification (sections
4.2 and 4.3); the clusterer is developed over an arbitrary linear ordered
commutative ring so that its theorems apply to every scaled matrix.  Euclidean-distance comparisons
`dist p q ≤ eps` are expressed in squared form `0 ≤ eps ∧ sqDist p q ≤ eps^2`,
which is equivalent and keeps every definition executable on rationals.
-/

namespace NEXT

section Clusterer

variable {α : Type} [LinearOrderedCommRing α] {n d : ℕ}

/-- Modelled from the spec: squared Euclidean distance between two rows of
the scaled matrix (sklearn's DBSCAN metric is not in the repository).
`sqDist p q = Σ_k (p k - q k)^2`. -/
def sqDist (p q : Fin d → α) : α :=
  ∑ k : Fin d, (p k - q k) ^ 2

/-- Modelled from the spec, section 4.3 rule 1: `q` lies within distance
`eps` of `p`, expressed without square roots: `dist p q ≤ eps` iff
`0 ≤ eps` and `sqDist p q ≤ eps^2`. -/
def withinEps (eps : α) (p q : Fin d → α) : Prop :=
  0 ≤ eps ∧ sqDist p q ≤ eps ^ 2

instance (eps : α) (p q : Fin d → α) : Decidable (withinEps eps p q) :=
  inferInstanceAs (Decidable (_ ∧ _))

/-- Modelled from the spec, section 4.3 rule 1: the ε-neighborhood of row
`i` is the set of all rows `q` (including `i` itself) whose Euclidean
distance to `i` is at most `eps`. -/
def nbhd (eps : α) (X : Fin n → Fin d → α) (i : Fin n) : Finset (Fin n) :=
  insert i (Finset.univ.filter (fun j => withinEps eps (X i) (X j)))

/-- Modelled from the spec, section 4.3 rule 2: a row is a core point if
its ε-neighborhood contains at least `min_samples` rows. -/
def isCore (eps : α) (m : ℤ) (X : Fin n → Fin d → α) (i : Fin n) : Prop :=
  m ≤ ((nbhd eps X i).card : ℤ)

instance (eps : α) (m : ℤ) (X : Fin n → Fin d → α) (i : Fin n) :
    Decidable (isCore eps m X i) :=
  inferInstanceAs (Decidable (m ≤ ((nbhd eps X i).card : ℤ)))

/-- Modelled from the spec, section 4.3 rules 3 and 5: the core points whose
ε-neighborhood contains row `i`.  A row is density-reachable from some core
point iff this set is nonempty; it is noise iff this set is empty. -/
def adjCores (eps : α) (m : ℤ) (X : Fin n → Fin d → α) (i : Fin n) :
    Finset (Fin n) :=
  Finset.univ.filter (fun c => isCore eps m X c ∧ i ∈ nbhd eps X c)

/-- Modelled from the spec, section 4.3 rule 4: one expansion step of the
density-connectivity closure — add every core point directly
density-reachable from the current set. -/
def coreStep (eps : α) (m : ℤ) (X : Fin n → Fin d → α)
    (s : Finset (Fin n)) : Finset (Fin n) :=
  s ∪ Finset.univ.filter
    (fun j => isCore eps m X j ∧ ∃ k ∈ s, j ∈ nbhd eps X k)

/-- Modelled from the spec, section 4.3 rule 4: the set of core points
density-connected to `c`, obtained as the fixed point of `coreStep`
(reached after at most `n` iterations). -/
def reachSet (eps : α) (m : ℤ) (X : Fin n → Fin d → α) (c : Fin n) :
    Finset (Fin n) :=
  (coreStep eps m X)^[n] {c}

/-- Modelled from the spec, section 4.3 rules 6 and 7: the first-discovered
(least-index) core point of the density-connected component of `c`, used to
number clusters in discovery order of the ascending-index traversal. -/
def headOf (eps : α) (m : ℤ) (X : Fin n → Fin d → α) (c : Fin n) : Fin n :=
  WithBot.unbot' c (reachSet eps m X c).min

/-- Modelled from the spec, section 4.3 rule 6: cluster ids are assigned
from 0 in discovery order, i.e. a component's id is the number of
components whose least core index precedes its own. -/
def clusterId (eps : α) (m : ℤ) (X : Fin n → Fin d → α) (c : Fin n) : ℕ :=
  (((Finset.univ.filter (isCore eps m X)).image (headOf eps m X)).filter
    (fun h => h < headOf eps m X c)).card

/-- Modelled from the spec, section 4.3 rules 5-7: the label of a row.
A row adjacent to no core point is noise (`none`); otherwise it belongs to
the first-discovered cluster among those whose core points reach it (for a
core point this is its own component's id; for a border point this is the
tie-break of rule 7). -/
def dbscanLabel (eps : α) (m : ℤ) (X : Fin n → Fin d → α) (i : Fin n) :
    Option ℕ :=
  if h : (adjCores eps m X i).Nonempty then
    some (((adjCores eps m X i).image (clusterId eps m X)).min'
      (h.image _))
  else
    none

/-- Modelled from the spec, section 7 (ParameterError): `min_samples ≤ 0`
is rejected before clustering begins; any other parameters (including
`eps ≤ 0`) run the clusterer. -/
def dbscanChecked (eps : α) (m : ℤ) (X : Fin n → Fin d → α) :
    Option (Fin n → Option ℕ) :=
  if m ≤ 0 then none else some (dbscanLabel eps m X)

/-- Rows labeled noise by the clusterer. -/
def noiseSet (eps : α) (m : ℤ) (X : Fin n → Fin d → α) : Finset (Fin n) :=
  Finset.univ.filter (fun i => dbscanLabel eps m X i = none)

end Clusterer

section Scaler

variable {α : Type} [LinearOrderedField α]

/-- Mean of a column, `Σ x / N` (division by zero yields 0 on the empty
column, matching the field convention). -/
def mean (xs : List α) : α :=
  xs.sum / (xs.length : α)

/-- Modelled from the spec, section 4.2: sample variance of a column,
`Σ (x - μ)^2 / (N - 1)` (sklearn's StandardScaler is not in the
repository; the spec prescribes the sample standard deviation). -/
def sampleVar (xs : List α) : α :=
  (xs.map (fun x => (x - mean xs) ^ 2)).sum / ((xs.length : α) - 1)

/-- Modelled from the spec, section 4.2: standardize one column.  `σ` is
the column's sample standard deviation, supplied abstractly as a value with
`σ^2 = sampleVar xs`; if the variance is zero every scaled value is 0,
otherwise each value `x` becomes `(x - μ) / σ`. -/
def scaleColumnWith (σ : α) (xs : List α) : List α :=
  if sampleVar xs = 0 then xs.map (fun _ => 0)
  else xs.map (fun x => (x - mean xs) / σ)

end Scaler

end NEXT


namespace NEXT

section Pipeline

/-- A transfer log record, with the fields and types documented in the
generator script's schema (floats embedded as rationals). -/
structure TransferRecord where
  ext_id : ℤ
  file_len : ℤ
  ext_danger : ℚ
  success : ℤ
  transfer_start_ms : ℤ
  transfer_finish_ms : ℤ
  transfer_delta_s : ℚ
  transfer_hour : ℤ
  work_weight : ℤ
deriving DecidableEq

/-- Translation of `hour_fraction_from_epoch_ms`: convert epoch
milliseconds (UTC) into a fractional hour of day,
`dt.hour + dt.minute / 60 + dt.second / 3600`.  The UTC clock fields of
`datetime.fromtimestamp(epoch_ms / 1000, tz=timezone.utc)` are recovered
arithmetically: `/` and `%` on `ℤ` are floor division and Euclidean
remainder, which agree with Python's `//` and `%` for the positive
divisors used here; the sub-second part of the timestamp does not enter
the result, exactly as in the source (microseconds are never read). -/
def hour_fraction_from_epoch_ms (epoch_ms : ℤ) : ℚ :=
  ((epoch_ms / 1000 % 86400 / 3600 : ℤ) : ℚ)
    + ((epoch_ms / 1000 % 86400 % 3600 / 60 : ℤ) : ℚ) / 60
    + ((epoch_ms / 1000 % 86400 % 60 : ℤ) : ℚ) / 3600

/-- The four record fields read by the pipeline's feature engineering:
`file_len`, `ext_danger`, `transfer_delta_s`, `transfer_start_ms`.
All remaining fields (`ext_id`, `success`, `transfer_finish_ms`, ...) are
never consulted by `main`. -/
def usedFields (r : TransferRecord) : ℤ × ℚ × ℚ × ℤ :=
  (r.file_len, r.ext_danger, r.transfer_delta_s, r.transfer_start_ms)

/-- Feature vector as a function of the four used fields. -/
noncomputable def encodeFour (q : ℤ × ℚ × ℚ × ℤ) : Fin 5 → ℝ :=
  ![(q.1 : ℝ), (q.2.1 : ℝ), (q.2.2.1 : ℝ),
    Real.sin (2 * Real.pi * ((hour_fraction_from_epoch_ms q.2.2.2 : ℚ) : ℝ) / 24),
    Real.cos (2 * Real.pi * ((hour_fraction_from_epoch_ms q.2.2.2 : ℚ) : ℝ) / 24)]

/-- Translation of the feature engineering in `main`: the five selected
feature columns `[file_len, ext_danger, transfer_delta_s, hour_sin,
hour_cos]` of one record, with `hour_sin = sin(2π·h/24)` and
`hour_cos = cos(2π·h/24)` for the fractional hour `h` of
`transfer_start_ms`. -/
noncomputable def encode (r : TransferRecord) : Fin 5 → ℝ :=
  encodeFour (usedFields r)

/-- Column `k` of the encoded feature matrix. -/
def colList {n : ℕ} (F : Fin n → Fin 5 → ℝ) (k : Fin 5) : List ℝ :=
  List.ofFn (fun i => F i k)

/-- Modelled from the spec, section 4.2: the scaled feature matrix — each
column independently standardized to `(x - μ) / σ` with σ the sample
standard deviation, and to 0 when σ = 0 (sklearn's StandardScaler is not
in the repository). -/
noncomputable def scaledX {n : ℕ} (F : Fin n → Fin 5 → ℝ) (i : Fin n) (k : Fin 5) : ℝ :=
  if sampleVar (colList F k) = 0 then 0
  else (F i k - mean (colList F k)) / Real.sqrt (sampleVar (colList F k))

/-- Cluster labels of a list of encoded feature vectors: scale the matrix,
then run the clusterer (`None` encodes the noise sentinel `-1`). -/
noncomputable def labelsOfEncoded (eps : ℝ) (m : ℤ) (E : List (Fin 5 → ℝ)) :
    List (Option ℕ) :=
  List.ofFn (fun i : Fin E.length =>
    dbscanLabel eps m (scaledX (fun j : Fin E.length => E.get j)) i)

/-- Translation of `main`'s processing pipeline on an in-memory input
mapping (association list of record id to record, in iteration order):
encode every record, scale the matrix, cluster, and return one label per
record in input order. -/
noncomputable def pipelineLabels (input : List (String × TransferRecord))
    (eps : ℝ) (m : ℤ) : List (Option ℕ) :=
  labelsOfEncoded eps m (input.map (fun p => encode p.2))

/-- One full pipeline run: every input entry paired with its cluster
label. -/
noncomputable def pipelineRun (input : List (String × TransferRecord))
    (eps : ℝ) (m : ℤ) : List ((String × TransferRecord) × Option ℕ) :=
  input.zip (pipelineLabels input eps m)

end Pipeline

end NEXT

namespace NEXT

section Generator

/-- Translation of `NORMAL_EXTENSIONS`. -/
def NORMAL_EXTENSIONS : List String :=
  [".txt", ".xlsx", ".doc", ".xml", ".zip", ".png", ".pdf"]

/-- Translation of `OUTLIER_EXTENSIONS`. -/
def OUTLIER_EXTENSIONS : List String :=
  [".ps1", ".cmd", ".rar"]

/-- Translation of the `EXT_DANGER` table (decimal float literals read as
exact rationals). -/
def EXT_DANGER : List (String × ℚ) :=
  [(".txt", 0.05), (".png", 0.05), (".pdf", 0.20), (".zip", 0.35),
   (".xml", 0.40), (".doc", 0.55), (".xlsx", 0.55), (".rar", 0.60),
   (".cmd", 0.95), (".ps1", 1.00)]

/-- Translation of `_normalize_ext`: strip, lowercase, prepend a dot when
missing; empty input normalizes to the empty string. -/
def normalize_ext (ext : String) : String :=
  let key := ext.trim.toLower
  if key = "" then ""
  else if key.startsWith "." then key
  else "." ++ key

/-- Translation of `_build_ext_id_map`'s result `EXT_TO_ID`: the known
extensions (the union of the two pools and the danger table's keys,
normalized and deduplicated) listed in sorted order with ids assigned from
1, preceded by the two zero entries; `sorted(set(...))` of the ten known
extensions yields exactly this ascending list. -/
def EXT_TO_ID : List (String × ℤ) :=
  [("", 0), (".unknown", 0),
   (".cmd", 1), (".doc", 2), (".pdf", 3), (".png", 4), (".ps1", 5),
   (".rar", 6), (".txt", 7), (".xlsx", 8), (".xml", 9), (".zip", 10)]

/-- Translation of `_ext_id`: look the normalized extension up in
`EXT_TO_ID`, defaulting to 0. -/
def ext_id_of (ext : String) : ℤ :=
  (EXT_TO_ID.lookup (normalize_ext ext)).getD 0

/-- Translation of `_danger_for_extension`: look the normalized extension
up in `EXT_DANGER`, defaulting to 1.0, then clamp into [0, 1]. -/
def danger_for_extension (ext : String) : ℚ :=
  max 0 (min 1 ((EXT_DANGER.lookup (normalize_ext ext)).getD 1))

/-- Translation of `_work_weight_for_hour` (hour buckets to weights, with
the defensive fallback 1). -/
def work_weight_for_hour (hour : ℤ) : ℤ :=
  if 0 ≤ hour ∧ hour < 4 then 1
  else if 4 ≤ hour ∧ hour < 6 then 2
  else if 6 ≤ hour ∧ hour < 8 then 5
  else if 8 ≤ hour ∧ hour < 17 then 10
  else if 17 ≤ hour ∧ hour < 21 then 6
  else if 21 ≤ hour ∧ hour < 24 then 3
  else 1

/-- Translation of `_record_from_times`.  Datetimes are represented by
their UTC epoch milliseconds (every datetime the generator builds has
whole-millisecond precision, so `_epoch_ms_utc` is exact);
`start_dt.hour` is recovered arithmetically from the epoch value. -/
def record_from_times (ext : String) (file_len : ℤ) (start_ms finish_ms : ℤ)
    (success : ℤ) : TransferRecord :=
  let hour : ℤ := (start_ms / 1000) % 86400 / 3600
  { ext_id := ext_id_of ext
    file_len := file_len
    ext_danger := danger_for_extension ext
    success := success
    transfer_start_ms := start_ms
    transfer_finish_ms := finish_ms
    transfer_delta_s := ((finish_ms - start_ms : ℤ) : ℚ) / 1000
    transfer_hour := hour
    work_weight := work_weight_for_hour hour }

/-- Random draws consumed by one iteration of the normal-record loop of
`generate_mock_data`: the chosen date (as a UTC day index), the start
second-of-day and millisecond from `_random_start_in_business_hours`, the
extension, the file length, the duration, and the success flag. -/
structure NormalDraw where
  day : ℤ
  startSec : ℤ
  startMs : ℤ
  ext : String
  fileLen : ℤ
  durationMs : ℤ
  succ : Bool

/-- Ranges guaranteed by the `random.randint` calls of the normal-record
loop: seconds in business hours [08:00:00, 17:00:00), milliseconds in
[0, 999], file length in [1, 25], duration in [1000, 120000]. -/
def validNormalDraw (dr : NormalDraw) : Prop :=
  28800 ≤ dr.startSec ∧ dr.startSec ≤ 61199 ∧
  0 ≤ dr.startMs ∧ dr.startMs ≤ 999 ∧
  1 ≤ dr.fileLen ∧ dr.fileLen ≤ 25 ∧
  1000 ≤ dr.durationMs ∧ dr.durationMs ≤ 120000

instance (dr : NormalDraw) : Decidable (validNormalDraw dr) :=
  inferInstanceAs (Decidable (_ ∧ _))

/-- Start epoch milliseconds of a normal record. -/
def normalStartMs (dr : NormalDraw) : ℤ :=
  dr.day * 86400000 + dr.startSec * 1000 + dr.startMs

/-- One iteration of the normal-record loop of `generate_mock_data`. -/
def normalRecord (dr : NormalDraw) : TransferRecord :=
  record_from_times dr.ext dr.fileLen (normalStartMs dr)
    (normalStartMs dr + dr.durationMs) (if dr.succ then 1 else 0)

/-- Random draws consumed by one iteration of the outlier-record loop:
the late/early segment choice of `_random_start_finish_in_night_window`,
the date, the start offset (seconds and milliseconds) within the segment,
the extension, file length, duration, and success flag. -/
structure OutlierDraw where
  late : Bool
  day : ℤ
  offSec : ℤ
  offMs : ℤ
  ext : String
  fileLen : ℤ
  durationMs : ℤ
  succ : Bool

/-- Start epoch milliseconds of an outlier record: the segment start
(23:00:00.000 of the chosen day, or its midnight) plus the drawn offset. -/
def outlierStartMs (dr : OutlierDraw) : ℤ :=
  if dr.late then dr.day * 86400000 + 82800000 + dr.offSec * 1000 + dr.offMs
  else dr.day * 86400000 + dr.offSec * 1000 + dr.offMs

/-- Segment end epoch milliseconds (23:59:59.999 or 03:59:59.999 of the
chosen day). -/
def outlierSegEndMs (dr : OutlierDraw) : ℤ :=
  if dr.late then dr.day * 86400000 + 86399999
  else dr.day * 86400000 + 14399999

/-- Ranges guaranteed by the `random` calls of the outlier-record loop,
including the duration cap
`randint(1000, min(120000, max(1000, seg_end - start)))`. -/
def validOutlierDraw (dr : OutlierDraw) : Prop :=
  (dr.late = true → 0 ≤ dr.offSec ∧ dr.offSec ≤ 3599) ∧
  (dr.late = false → 0 ≤ dr.offSec ∧ dr.offSec ≤ 14399) ∧
  0 ≤ dr.offMs ∧ dr.offMs ≤ 999 ∧
  30 ≤ dr.fileLen ∧ dr.fileLen ≤ 60 ∧
  1000 ≤ dr.durationMs ∧
  dr.durationMs ≤ min 120000 (max 1000 (outlierSegEndMs dr - outlierStartMs dr))

instance (dr : OutlierDraw) : Decidable (validOutlierDraw dr) :=
  inferInstanceAs (Decidable (_ ∧ _))

/-- One iteration of the outlier-record loop of `generate_mock_data`. -/
def outlierRecord (dr : OutlierDraw) : TransferRecord :=
  record_from_times dr.ext dr.fileLen (outlierStartMs dr)
    (outlierStartMs dr + dr.durationMs) (if dr.succ then 1 else 0)

/-- Translation of `generate_mock_data`, parameterized by the sequences of
random draws of its two loops: the produced records, in insertion order
(the fresh random ids are not modelled; no claim concerns them). -/
def generate_mock_data (nds : List NormalDraw) (ods : List OutlierDraw) :
    List TransferRecord :=
  nds.map normalRecord ++ ods.map outlierRecord

/-- Conformance of one record to the schema of spec section 3:
`ext_danger` in [0, 1], `success` equal to 0 or 1, ordered timestamps, and
`transfer_delta_s` equal to `(finish_ms - start_ms) / 1000` exactly. -/
def conformsSchema (r : TransferRecord) : Prop :=
  0 ≤ r.ext_danger ∧ r.ext_danger ≤ 1 ∧
  (r.success = 0 ∨ r.success = 1) ∧
  r.transfer_start_ms ≤ r.transfer_finish_ms ∧
  r.transfer_delta_s = ((r.transfer_finish_ms - r.transfer_start_ms : ℤ) : ℚ) / 1000

instance (r : TransferRecord) : Decidable (conformsSchema r) :=
  inferInstanceAs (Decidable (_ ∧ _))

end Generator

end NEXT

namespace NEXT

section SampleData

/-- Sample scaled matrix with two one-dimensional rows at distance 1. -/
def X01 : Fin 2 → Fin 1 → ℤ := ![![0], ![1]]

/-- Sample scaled matrix whose two rows are identical. -/
def XU : Fin 2 → Fin 1 → ℤ := fun _ _ => 5

/-- Sample scaled matrix with duplicate rows, for the `eps = 0` boundary. -/
def XD : Fin 2 → Fin 1 → ℤ := fun _ _ => 0

/-- Sample well-formed record. -/
def recA : TransferRecord :=
  ⟨7, 3, 0.05, 1, 1000, 2000, 1, 0, 1⟩

/-- Sample record equal to `recA` except for the sub-second part of
`transfer_start_ms` (1999 ms lies in the same UTC second as 1000 ms). -/
def recB : TransferRecord :=
  ⟨7, 3, 0.05, 1, 1999, 2000, 1, 0, 1⟩

/-- Sample record agreeing with `recA` on the four fields the pipeline
reads, but violating the schema ranges everywhere else: `success = 7` and
`transfer_finish_ms < transfer_start_ms`. -/
def recC : TransferRecord :=
  ⟨7, 3, 0.05, 7, 1000, 0, 1, 0, 1⟩

/-- Sample record violating every range constraint of spec section 3:
`ext_danger = 2`, `success = 7`, `transfer_finish_ms < transfer_start_ms`. -/
def badRec : TransferRecord :=
  ⟨0, 7, 2, 7, 1000, 0, 99, 0, 0⟩

/-- Sample draw for the normal-record loop. -/
def drN : NormalDraw :=
  ⟨10, 28800, 0, ".txt", 5, 1000, true⟩

/-- Sample draw for the outlier-record loop (late segment). -/
def drO : OutlierDraw :=
  ⟨true, 10, 0, 0, ".ps1", 30, 1000, false⟩

end SampleData

end NEXT

namespace NEXT

section ClustererLemmas

variable {α : Type} [LinearOrderedCommRing α] {n d : ℕ}

theorem sqDist_nonneg (p q : Fin d → α) : 0 ≤ sqDist p q :=
  Finset.sum_nonneg fun _ _ => sq_nonneg _

theorem sqDist_self (p : Fin d → α) : sqDist p p = 0 := by
  simp [sqDist]

theorem sqDist_eq_zero {p q : Fin d → α} (h : sqDist p q = 0) : p = q := by
  funext k
  have hk := (Finset.sum_eq_zero_iff_of_nonneg
    (fun k _ => sq_nonneg (p k - q k))).mp h k (Finset.mem_univ k)
  exact sub_eq_zero.mp (sq_eq_zero_iff.mp hk)

theorem withinEps_mono {eps eps' : α} (h : eps' ≤ eps) {p q : Fin d → α}
    (hw : withinEps eps' p q) : withinEps eps p q :=
  ⟨hw.1.trans h, hw.2.trans (pow_le_pow_left₀ hw.1 h 2)⟩

theorem mem_nbhd_self (eps : α) (X : Fin n → Fin d → α) (i : Fin n) :
    i ∈ nbhd eps X i :=
  Finset.mem_insert_self i _

theorem nbhd_mono {eps eps' : α} (h : eps' ≤ eps) (X : Fin n → Fin d → α)
    (i : Fin n) : nbhd eps' X i ⊆ nbhd eps X i := by
  intro j hj
  rcases Finset.mem_insert.mp hj with hji | hj
  · exact hji ▸ mem_nbhd_self eps X i
  · exact Finset.mem_insert_of_mem (Finset.mem_filter.mpr
      ⟨Finset.mem_univ _, withinEps_mono h (Finset.mem_filter.mp hj).2⟩)

theorem isCore_mono {eps eps' : α} {m m' : ℤ} (heps : eps' ≤ eps)
    (hm : m ≤ m') (X : Fin n → Fin d → α) (i : Fin n)
    (h : isCore eps' m' X i) : isCore eps m X i := by
  unfold isCore at h ⊢
  have hcard : ((nbhd eps' X i).card : ℤ) ≤ ((nbhd eps X i).card : ℤ) := by
    exact_mod_cast Finset.card_le_card (nbhd_mono heps X i)
  omega

theorem dbscanLabel_eq_none_iff {eps : α} {m : ℤ} {X : Fin n → Fin d → α}
    {i : Fin n} : dbscanLabel eps m X i = none ↔ adjCores eps m X i = ∅ := by
  by_cases h : (adjCores eps m X i).Nonempty
  · simp [dbscanLabel, dif_pos h, Finset.nonempty_iff_ne_empty.mp h]
  · simp [dbscanLabel, dif_neg h, Finset.not_nonempty_iff_eq_empty.mp h]

theorem dbscanLabel_congr {eps : α} {m : ℤ} {X : Fin n → Fin d → α}
    {i j : Fin n} (h : adjCores eps m X i = adjCores eps m X j) :
    dbscanLabel eps m X i = dbscanLabel eps m X j := by
  simp only [dbscanLabel, h]

end ClustererLemmas

/-- C1: noise monotonicity of the Density Clusterer.  For a fixed scaled
matrix `X`, if `eps' ≤ eps` and `min_samples' ≥ min_samples`, the set of
rows labeled noise under the more restrictive parameters `(eps', m')` is a
superset of the noise set under `(eps, m)`, and the noise count never
decreases.  (Taking `m' = m` or `eps' = eps` gives the two one-parameter
statements of the claim.) -/
theorem noise_monotonicity_c1 {α : Type} [LinearOrderedCommRing α]
    {n d : ℕ} (eps eps' : α) (m m' : ℤ) (X : Fin n → Fin d → α)
    (heps : eps' ≤ eps) (hm : m ≤ m') :
    noiseSet eps m X ⊆ noiseSet eps' m' X ∧
    (noiseSet eps m X).card ≤ (noiseSet eps' m' X).card := by
  have hsub : noiseSet eps m X ⊆ noiseSet eps' m' X := by
    intro i hi
    have hadj : adjCores eps m X i = ∅ :=
      dbscanLabel_eq_none_iff.mp (Finset.mem_filter.mp hi).2
    refine Finset.mem_filter.mpr ⟨Finset.mem_univ _,
      dbscanLabel_eq_none_iff.mpr ?_⟩
    by_contra hne
    obtain ⟨c, hc⟩ := Finset.nonempty_iff_ne_empty.mpr hne
    obtain ⟨-, hcore', hmem'⟩ := Finset.mem_filter.mp hc
    have hc' : c ∈ adjCores eps m X i :=
      Finset.mem_filter.mpr ⟨Finset.mem_univ _,
        isCore_mono heps hm X c hcore', nbhd_mono heps X c hmem'⟩
    rw [hadj] at hc'
    exact absurd hc' (Finset.not_mem_empty c)
  exact ⟨hsub, Finset.card_le_card hsub⟩

/-- C1 witness: on the concrete matrix `X01` with `eps = 2, m = 1` versus
the more restrictive `eps' = 0, m' = 2`, the monotonicity theorem applies
with all hypotheses discharged on concrete values. -/
theorem noise_monotonicity_c1_witness :
    (0 : ℤ) ≤ 2 ∧ (1 : ℤ) ≤ 2 ∧
    (noiseSet (2 : ℤ) 1 X01 ⊆ noiseSet (0 : ℤ) 2 X01 ∧
      (noiseSet (2 : ℤ) 1 X01).card ≤ (noiseSet (0 : ℤ) 2 X01).card) :=
  ⟨by decide, by decide,
    noise_monotonicity_c1 2 0 1 2 X01 (by decide) (by decide)⟩

/-- C8: boundary-inclusive neighborhoods.  For `eps ≥ 0` (the clusterer
contract requires `eps > 0`), a row `q` belongs to the ε-neighborhood of
`p` iff its Euclidean distance to `p` is at most `eps` — stated in the
equivalent squared form `sqDist (X p) (X q) ≤ eps^2` — with `p` always a
member of its own neighborhood, and `p` is a core point iff the
neighborhood holds at least `min_samples` rows. -/
theorem boundary_inclusive_c8 {α : Type} [LinearOrderedCommRing α]
    {n d : ℕ} (eps : α) (m : ℤ) (X : Fin n → Fin d → α) (p q : Fin n)
    (heps : 0 ≤ eps) :
    (q ∈ nbhd eps X p ↔ sqDist (X p) (X q) ≤ eps ^ 2) ∧
    p ∈ nbhd eps X p ∧
    (isCore eps m X p ↔ m ≤ ((nbhd eps X p).card : ℤ)) := by
  refine ⟨⟨fun hq => ?_, fun hq => ?_⟩, mem_nbhd_self eps X p, Iff.rfl⟩
  · rcases Finset.mem_insert.mp hq with h | h
    · rw [h, sqDist_self]
      exact sq_nonneg eps
    · exact (Finset.mem_filter.mp h).2.2
  · exact Finset.mem_insert_of_mem
      (Finset.mem_filter.mpr ⟨Finset.mem_univ _, heps, hq⟩)

/-- C8 witness: on the concrete matrix `X01` with `eps = 1`, the two rows
sit exactly at distance `eps` (`sqDist = eps^2`), and the neighborhood
characterization of the theorem applies — the boundary tie is inclusive. -/
theorem boundary_inclusive_c8_witness :
    (0 : ℤ) ≤ 1 ∧ sqDist (X01 0) (X01 1) = 1 ^ 2 ∧
    ((1 : Fin 2) ∈ nbhd (1 : ℤ) X01 0 ↔
      sqDist (X01 0) (X01 1) ≤ 1 ^ 2) :=
  ⟨by decide, by decide, (boundary_inclusive_c8 1 1 X01 0 1 (by decide)).1⟩

end NEXT

namespace NEXT

section UniformDegenerate

variable {α : Type} [LinearOrderedCommRing α] {n d : ℕ}

theorem nbhd_eq_univ_of_uniform {eps : α} (heps : 0 ≤ eps)
    {X : Fin n → Fin d → α} (huni : ∀ i j, X i = X j) (i : Fin n) :
    nbhd eps X i = Finset.univ := by
  apply Finset.eq_univ_iff_forall.mpr
  intro j
  refine Finset.mem_insert_of_mem
    (Finset.mem_filter.mpr ⟨Finset.mem_univ _, heps, ?_⟩)
  rw [huni i j, sqDist_self]
  exact sq_nonneg eps

theorem adjCores_eq_univ_of_uniform {eps : α} {m : ℤ} (heps : 0 ≤ eps)
    {X : Fin n → Fin d → α} (huni : ∀ i j, X i = X j) (hm : m ≤ (n : ℤ))
    (i : Fin n) : adjCores eps m X i = Finset.univ := by
  apply Finset.eq_univ_iff_forall.mpr
  intro c
  refine Finset.mem_filter.mpr ⟨Finset.mem_univ _, ?_, ?_⟩
  · unfold isCore
    rw [nbhd_eq_univ_of_uniform heps huni c, Finset.card_univ,
      Fintype.card_fin]
    exact hm
  · rw [nbhd_eq_univ_of_uniform heps huni c]
    exact Finset.mem_univ i

theorem dbscanLabel_ne_none_of_uniform {eps : α} {m : ℤ} (heps : 0 ≤ eps)
    {X : Fin n → Fin d → α} (huni : ∀ i j, X i = X j) (hm : m ≤ (n : ℤ))
    (i : Fin n) : dbscanLabel eps m X i ≠ none := by
  intro hnone
  have hemp := dbscanLabel_eq_none_iff.mp hnone
  rw [adjCores_eq_univ_of_uniform heps huni hm i] at hemp
  have hne : (Finset.univ : Finset (Fin n)).Nonempty := ⟨i, Finset.mem_univ i⟩
  exact hne.ne_empty hemp

end UniformDegenerate

/-- C6: uniform-batch boundary.  If all rows of the scaled matrix are
identical and `eps ≥ 0` (the clusterer contract requires `eps > 0`), then
when `min_samples ≤ N` every pair of rows carries the same non-noise label
(one cluster containing all N rows), and when `min_samples > N` every row
is labeled noise — never a mixture. -/
theorem uniform_batch_c6 {α : Type} [LinearOrderedCommRing α] {n d : ℕ}
    (eps : α) (m : ℤ) (X : Fin n → Fin d → α)
    (heps : 0 ≤ eps) (huni : ∀ i j, X i = X j) :
    (m ≤ (n : ℤ) → ∀ i j, dbscanLabel eps m X i = dbscanLabel eps m X j ∧
      dbscanLabel eps m X i ≠ none) ∧
    ((n : ℤ) < m → ∀ i, dbscanLabel eps m X i = none) := by
  constructor
  · intro hm i j
    have hi := adjCores_eq_univ_of_uniform heps huni hm i
    have hj := adjCores_eq_univ_of_uniform heps huni hm j
    exact ⟨dbscanLabel_congr (hi.trans hj.symm),
      dbscanLabel_ne_none_of_uniform heps huni hm i⟩
  · intro hm i
    apply dbscanLabel_eq_none_iff.mpr
    apply Finset.eq_empty_iff_forall_not_mem.mpr
    intro c hc
    obtain ⟨-, hcore, -⟩ := Finset.mem_filter.mp hc
    unfold isCore at hcore
    rw [nbhd_eq_univ_of_uniform heps huni c, Finset.card_univ,
      Fintype.card_fin] at hcore
    omega

/-- C6 witness: on the uniform two-row matrix `XU` with `eps = 1` and
`min_samples = 2 ≤ N = 2`, both rows receive the same non-noise label. -/
theorem uniform_batch_c6_witness :
    (0 : ℤ) ≤ 1 ∧ (2 : ℤ) ≤ ((2 : ℕ) : ℤ) ∧
    (dbscanLabel (1 : ℤ) 2 XU 0 = dbscanLabel (1 : ℤ) 2 XU 1 ∧
      dbscanLabel (1 : ℤ) 2 XU 0 ≠ none) :=
  ⟨by decide, by decide,
    (uniform_batch_c6 1 2 XU (by decide) (fun _ _ => rfl)).1 (by decide) 0 1⟩

end NEXT

namespace NEXT

section Degenerate

variable {α : Type} [LinearOrderedCommRing α] {n d : ℕ}

theorem nbhd_eq_singleton_of_degenerate {eps : α} {X : Fin n → Fin d → α}
    (hdeg : eps < 0 ∨ (eps = 0 ∧ Function.Injective X)) (i : Fin n) :
    nbhd eps X i = {i} := by
  apply Finset.Subset.antisymm
  · intro j hj
    rcases Finset.mem_insert.mp hj with hji | hj
    · simp [hji]
    · obtain ⟨-, h0, hsq⟩ := Finset.mem_filter.mp hj
      rcases hdeg with hneg | ⟨hz, hinj⟩
      · exact absurd h0 (not_le.mpr hneg)
      · subst hz
        have hzero : sqDist (X i) (X j) = 0 :=
          le_antisymm (by simpa using hsq) (sqDist_nonneg _ _)
        rw [Finset.mem_singleton]
        exact (hinj (sqDist_eq_zero hzero)).symm
  · intro j hj
    rw [Finset.mem_singleton] at hj
    exact hj ▸ mem_nbhd_self eps X i

theorem coreStep_singleton_of_degenerate {eps : α} {m : ℤ}
    {X : Fin n → Fin d → α}
    (hdeg : eps < 0 ∨ (eps = 0 ∧ Function.Injective X)) (c : Fin n) :
    coreStep eps m X {c} = {c} := by
  unfold coreStep
  apply Finset.union_eq_left.mpr
  intro j hj
  obtain ⟨-, -, k, hk, hmem⟩ := Finset.mem_filter.mp hj
  rw [Finset.mem_singleton] at hk
  subst hk
  rw [nbhd_eq_singleton_of_degenerate hdeg] at hmem
  exact hmem

theorem headOf_eq_self_of_degenerate {eps : α} {m : ℤ}
    {X : Fin n → Fin d → α}
    (hdeg : eps < 0 ∨ (eps = 0 ∧ Function.Injective X)) (c : Fin n) :
    headOf eps m X c = c := by
  unfold headOf reachSet
  rw [Function.iterate_fixed (coreStep_singleton_of_degenerate hdeg c) n,
    Finset.min_singleton]
  rfl

theorem isCore_one_of_degenerate {eps : α} {X : Fin n → Fin d → α}
    (hdeg : eps < 0 ∨ (eps = 0 ∧ Function.Injective X)) (i : Fin n) :
    isCore eps 1 X i := by
  unfold isCore
  rw [nbhd_eq_singleton_of_degenerate hdeg, Finset.card_singleton]
  simp

theorem card_filter_lt_fin {n : ℕ} (i : Fin n) :
    (Finset.univ.filter (fun j => j < i)).card = i.val := by
  have h : Finset.univ.filter (fun j => j < i) = Finset.Iio i := by
    ext j
    simp [Finset.mem_Iio]
  rw [h, Fin.card_Iio]

end Degenerate

/-- C5 (amended): degenerate `eps` is a valid outcome, not an error.
`min_samples ≤ 0` is rejected before clustering and any `min_samples ≥ 1`
is accepted whatever `eps` is; and when `eps < 0`, or `eps = 0` with
pairwise-distinct rows, every ε-neighborhood degenerates to the row
itself, so `min_samples > 1` labels every row noise and `min_samples = 1`
gives every row its own singleton cluster (cluster ids `0..N-1` in index
order).  The distinctness proviso at `eps = 0` is forced by the
counterexample: exact duplicate rows lie at distance 0 of each other and
can still form clusters. -/
theorem degenerate_eps_c5 {α : Type} [LinearOrderedCommRing α] {n d : ℕ}
    (eps : α) (m : ℤ) (X : Fin n → Fin d → α)
    (hdeg : eps < 0 ∨ (eps = 0 ∧ Function.Injective X)) :
    (1 ≤ m → dbscanChecked eps m X = some (dbscanLabel eps m X)) ∧
    (m ≤ 0 → dbscanChecked eps m X = none) ∧
    (2 ≤ m → ∀ i, dbscanLabel eps m X i = none) ∧
    (m = 1 → ∀ i, dbscanLabel eps m X i = some i.val) := by
  refine ⟨fun hm => ?_, fun hm => ?_, fun hm i => ?_, fun hm i => ?_⟩
  · unfold dbscanChecked
    rw [if_neg (by omega)]
  · unfold dbscanChecked
    rw [if_pos hm]
  · apply dbscanLabel_eq_none_iff.mpr
    apply Finset.eq_empty_iff_forall_not_mem.mpr
    intro c hc
    obtain ⟨-, hcore, -⟩ := Finset.mem_filter.mp hc
    unfold isCore at hcore
    rw [nbhd_eq_singleton_of_degenerate hdeg, Finset.card_singleton]
      at hcore
    simp at hcore
    omega
  · subst hm
    have hadj : adjCores eps 1 X i = {i} := by
      apply Finset.Subset.antisymm
      · intro c hc
        obtain ⟨-, -, hmem⟩ := Finset.mem_filter.mp hc
        rw [nbhd_eq_singleton_of_degenerate hdeg, Finset.mem_singleton]
          at hmem
        rw [Finset.mem_singleton]
        exact hmem.symm
      · intro c hc
        rw [Finset.mem_singleton] at hc
        subst hc
        exact Finset.mem_filter.mpr ⟨Finset.mem_univ _,
          isCore_one_of_degenerate hdeg c, mem_nbhd_self _ _ _⟩
    have hcid : clusterId eps 1 X i = i.val := by
      unfold clusterId
      have hall : Finset.univ.filter (isCore eps 1 X) = Finset.univ :=
        Finset.filter_true_of_mem (fun c _ => isCore_one_of_degenerate hdeg c)
      have himg : Finset.univ.image (headOf eps 1 X) = Finset.univ := by
        apply Finset.eq_univ_iff_forall.mpr
        intro c
        exact Finset.mem_image.mpr ⟨c, Finset.mem_univ c,
          headOf_eq_self_of_degenerate hdeg c⟩
      rw [hall, himg, headOf_eq_self_of_degenerate hdeg,
        card_filter_lt_fin]
    simp [dbscanLabel, hadj, Finset.image_singleton, Finset.min'_singleton,
      hcid]

/-- C5 witness: with `eps = -1 < 0` and `min_samples = 1` on the
two-distinct-row matrix `X01`, the clusterer is not rejected and every row
forms its own singleton cluster; with `min_samples = 0` the parameters are
rejected. -/
theorem degenerate_eps_c5_witness :
    (-1 : ℤ) < 0 ∧
    dbscanChecked (-1 : ℤ) 0 X01 = none ∧
    dbscanLabel (-1 : ℤ) 1 X01 0 = some 0 ∧
    dbscanLabel (-1 : ℤ) 1 X01 1 = some 1 :=
  ⟨by decide,
    (degenerate_eps_c5 (-1) 0 X01 (Or.inl (by decide))).2.1 (by decide),
    (degenerate_eps_c5 (-1) 1 X01 (Or.inl (by decide))).2.2.2 rfl 0,
    (degenerate_eps_c5 (-1) 1 X01 (Or.inl (by decide))).2.2.2 rfl 1⟩

/-- C5 counterexample: the claim as stated fails at `eps = 0` on a batch
with duplicate rows.  On `XD` (two identical rows) with `eps = 0 ≤ 0` and
`min_samples = 2 > 1`, the claim demands that every row be labeled noise,
but both rows lie in each other's ε-neighborhood, are core points, and are
clustered — neither is noise. -/
theorem degenerate_eps_c5_cex :
    (0 : ℤ) ≤ 0 ∧ 1 < (2 : ℤ) ∧ XD 0 = XD 1 ∧
    dbscanLabel (0 : ℤ) 2 XD 0 ≠ none ∧
    dbscanLabel (0 : ℤ) 2 XD 1 ≠ none :=
  ⟨by decide, by decide, rfl, by decide, by decide⟩

end NEXT

namespace NEXT

section ScalerLemmas

variable {α : Type} [LinearOrderedField α]

theorem sum_map_sub (xs : List α) (c : α) :
    (xs.map (fun x => x - c)).sum = xs.sum - (xs.length : α) * c := by
  induction xs with
  | nil => simp
  | cons a t ih =>
    simp only [List.map_cons, List.sum_cons, List.length_cons, ih]
    push_cast
    ring

theorem sampleVar_nil : sampleVar ([] : List α) = 0 := by
  simp [sampleVar]

theorem mean_scaleColumnWith (σ : α) (xs : List α) :
    mean (scaleColumnWith σ xs) = 0 := by
  unfold scaleColumnWith
  split
  · unfold mean
    simp
  · rename_i hvar
    have hne : xs ≠ [] := by
      intro he
      exact hvar (he ▸ sampleVar_nil)
    have hlen : (xs.length : α) ≠ 0 :=
      Nat.cast_ne_zero.mpr (fun h => hne (List.length_eq_zero.mp h))
    have hsum : (xs.map fun x => (x - mean xs) / σ).sum
        = (xs.sum - (xs.length : α) * mean xs) * σ⁻¹ := by
      simp only [div_eq_mul_inv]
      rw [List.sum_map_mul_right, sum_map_sub]
    have hz : xs.sum - (xs.length : α) * mean xs = 0 := by
      unfold mean
      field_simp
    have hs0 : (xs.map fun x => (x - mean xs) / σ).sum = 0 := by
      rw [hsum, hz, zero_mul]
    show (xs.map fun x => (x - mean xs) / σ).sum
      / (((xs.map fun x => (x - mean xs) / σ).length : ℕ) : α) = 0
    rw [hs0, zero_div]

theorem sampleVar_scaleColumnWith (σ : α) (xs : List α)
    (hσ : σ ^ 2 = sampleVar xs) (hvar : sampleVar xs ≠ 0) :
    sampleVar (scaleColumnWith σ xs) = 1 := by
  have hσ0 : σ ≠ 0 := by
    intro h
    apply hvar
    rw [← hσ, h]
    ring
  have hmean := mean_scaleColumnWith σ xs
  rw [scaleColumnWith, if_neg hvar] at hmean ⊢
  have hden : ((xs.length : α) - 1) ≠ 0 := by
    intro h
    apply hvar
    unfold sampleVar
    rw [h, div_zero]
  have hnum : (xs.map fun x => (x - mean xs) ^ 2).sum ≠ 0 := by
    intro h
    apply hvar
    unfold sampleVar
    rw [h, zero_div]
  unfold sampleVar
  rw [List.length_map, hmean]
  simp only [sub_zero]
  rw [List.map_map]
  have hfun : ((fun y => y ^ 2) ∘ fun x => (x - mean xs) / σ)
      = fun x => (x - mean xs) ^ 2 * (σ ^ 2)⁻¹ := by
    funext x
    simp only [Function.comp_apply, div_eq_mul_inv]
    rw [mul_pow, inv_pow]
  rw [hfun, List.sum_map_mul_right, hσ]
  unfold sampleVar
  field_simp

end ScalerLemmas

/-- C2: Feature Scaler standardization.  Each column is transformed
independently (see `scaledX` for the five-column matrix form): with `σ`
the column's sample standard deviation (`σ ≥ 0`, `σ^2 = sampleVar xs`),
the non-degenerate transform maps each `x` to `(x - μ) / σ`; if `σ = 0`
(equivalently `sampleVar xs = 0`, all values identical) every scaled value
is 0; the scaled column always has mean 0, and in the non-degenerate case
its sample variance is 1 — equivalently its sample standard deviation
is 1. -/
theorem scaler_standardization_c2 {α : Type} [LinearOrderedField α]
    (xs : List α) (σ : α) (hσpos : 0 ≤ σ) (hσ : σ ^ 2 = sampleVar xs) :
    (sampleVar xs = 0 → scaleColumnWith σ xs = xs.map (fun _ => 0)) ∧
    (sampleVar xs ≠ 0 →
      scaleColumnWith σ xs = xs.map (fun x => (x - mean xs) / σ)) ∧
    mean (scaleColumnWith σ xs) = 0 ∧
    (sampleVar xs ≠ 0 → sampleVar (scaleColumnWith σ xs) = 1) := by
  refine ⟨fun h => ?_, fun h => ?_, mean_scaleColumnWith σ xs,
    fun h => sampleVar_scaleColumnWith σ xs hσ h⟩
  · rw [scaleColumnWith, if_pos h]
  · rw [scaleColumnWith, if_neg h]

/-- C2 witness: the concrete column `[1, 2, 3]` over ℚ has sample variance
1, sample standard deviation `σ = 1`, scaled values `[-1, 0, 1]`, scaled
mean 0 and scaled sample variance 1. -/
theorem scaler_standardization_c2_witness :
    (0 : ℚ) ≤ 1 ∧ (1 : ℚ) ^ 2 = sampleVar [1, 2, 3] ∧
    sampleVar ([1, 2, 3] : List ℚ) ≠ 0 ∧
    scaleColumnWith (1 : ℚ) [1, 2, 3] = [-1, 0, 1] ∧
    mean (scaleColumnWith (1 : ℚ) [1, 2, 3]) = 0 ∧
    sampleVar (scaleColumnWith (1 : ℚ) [1, 2, 3]) = 1 := by
  have hσ : (1 : ℚ) ^ 2 = sampleVar [1, 2, 3] := by
    norm_num [sampleVar, mean]
  have hv : sampleVar ([1, 2, 3] : List ℚ) ≠ 0 := by
    norm_num [sampleVar, mean]
  have h := scaler_standardization_c2 [1, 2, 3] 1 (by norm_num) hσ
  refine ⟨by norm_num, hσ, hv, ?_, h.2.2.1, h.2.2.2 hv⟩
  rw [h.2.1 hv]
  norm_num [mean]

end NEXT

namespace NEXT

section HourLemmas

theorem encode_apply_three (r : TransferRecord) :
    encode r 3 = Real.sin (2 * Real.pi *
      ((hour_fraction_from_epoch_ms r.transfer_start_ms : ℚ) : ℝ) / 24) :=
  rfl

theorem encode_apply_four (r : TransferRecord) :
    encode r 4 = Real.cos (2 * Real.pi *
      ((hour_fraction_from_epoch_ms r.transfer_start_ms : ℚ) : ℝ) / 24) :=
  rfl

theorem hour_fraction_add_day (ms : ℤ) :
    hour_fraction_from_epoch_ms (ms + 86400000)
      = hour_fraction_from_epoch_ms ms := by
  unfold hour_fraction_from_epoch_ms
  have h : (ms + 86400000) / 1000 % 86400 = ms / 1000 % 86400 := by omega
  rw [h]

theorem hour_fraction_nonneg (ms : ℤ) :
    0 ≤ hour_fraction_from_epoch_ms ms := by
  unfold hour_fraction_from_epoch_ms
  have h1 : (0 : ℤ) ≤ ms / 1000 % 86400 / 3600 := by omega
  have h2 : (0 : ℤ) ≤ ms / 1000 % 86400 % 3600 / 60 := by omega
  have h3 : (0 : ℤ) ≤ ms / 1000 % 86400 % 60 := by omega
  have c1 : (0 : ℚ) ≤ ((ms / 1000 % 86400 / 3600 : ℤ) : ℚ) := by
    exact_mod_cast h1
  have c2 : (0 : ℚ) ≤ ((ms / 1000 % 86400 % 3600 / 60 : ℤ) : ℚ) := by
    exact_mod_cast h2
  have c3 : (0 : ℚ) ≤ ((ms / 1000 % 86400 % 60 : ℤ) : ℚ) := by
    exact_mod_cast h3
  have d2 : (0 : ℚ) ≤ ((ms / 1000 % 86400 % 3600 / 60 : ℤ) : ℚ) / 60 := by
    positivity
  have d3 : (0 : ℚ) ≤ ((ms / 1000 % 86400 % 60 : ℤ) : ℚ) / 3600 := by
    positivity
  linarith

theorem hour_fraction_lt_24 (ms : ℤ) :
    hour_fraction_from_epoch_ms ms < 24 := by
  unfold hour_fraction_from_epoch_ms
  have h1 : ms / 1000 % 86400 / 3600 ≤ 23 := by omega
  have h2 : ms / 1000 % 86400 % 3600 / 60 ≤ 59 := by omega
  have h3 : ms / 1000 % 86400 % 60 ≤ 59 := by omega
  have c1 : ((ms / 1000 % 86400 / 3600 : ℤ) : ℚ) ≤ 23 := by exact_mod_cast h1
  have c2 : ((ms / 1000 % 86400 % 3600 / 60 : ℤ) : ℚ) ≤ 59 := by
    exact_mod_cast h2
  have c3 : ((ms / 1000 % 86400 % 60 : ℤ) : ℚ) ≤ 59 := by exact_mod_cast h3
  have d2 : ((ms / 1000 % 86400 % 3600 / 60 : ℤ) : ℚ) / 60 ≤ 59 / 60 :=
    (div_le_div_iff_of_pos_right (by norm_num)).mpr c2
  have d3 : ((ms / 1000 % 86400 % 60 : ℤ) : ℚ) / 3600 ≤ 59 / 3600 :=
    (div_le_div_iff_of_pos_right (by norm_num)).mpr c3
  linarith

end HourLemmas

/-- C4: time-of-day encoding.  For every epoch value the fractional hour
`h = hour + minute/60 + second/3600` (derived from `transfer_start_ms` as
UTC) lies in `[0, 24)` and is invariant under adding one full day
(86400000 ms) — hour 24 wraps to hour 0; the encoder emits
`hour_sin = sin(2π·h/24)` and `hour_cos = cos(2π·h/24)` in feature
positions 3 and 4, so a record whose start time is shifted by exactly one
day produces the identical `(hour_sin, hour_cos)` pair. -/
theorem cyclical_encoding_c4 (ms : ℤ) (r : TransferRecord) :
    (0 ≤ hour_fraction_from_epoch_ms ms ∧
      hour_fraction_from_epoch_ms ms < 24) ∧
    hour_fraction_from_epoch_ms (ms + 86400000)
      = hour_fraction_from_epoch_ms ms ∧
    encode r 3 = Real.sin (2 * Real.pi *
      ((hour_fraction_from_epoch_ms r.transfer_start_ms : ℚ) : ℝ) / 24) ∧
    encode r 4 = Real.cos (2 * Real.pi *
      ((hour_fraction_from_epoch_ms r.transfer_start_ms : ℚ) : ℝ) / 24) ∧
    encode { r with transfer_start_ms := r.transfer_start_ms + 86400000 } 3
      = encode r 3 ∧
    encode { r with transfer_start_ms := r.transfer_start_ms + 86400000 } 4
      = encode r 4 := by
  refine ⟨⟨hour_fraction_nonneg ms, hour_fraction_lt_24 ms⟩,
    hour_fraction_add_day ms, encode_apply_three r, encode_apply_four r,
    ?_, ?_⟩
  · rw [encode_apply_three, encode_apply_three]
    rw [show ({ r with transfer_start_ms := r.transfer_start_ms + 86400000 }
        : TransferRecord).transfer_start_ms
      = r.transfer_start_ms + 86400000 from rfl]
    rw [hour_fraction_add_day]
  · rw [encode_apply_four, encode_apply_four]
    rw [show ({ r with transfer_start_ms := r.transfer_start_ms + 86400000 }
        : TransferRecord).transfer_start_ms
      = r.transfer_start_ms + 86400000 from rfl]
    rw [hour_fraction_add_day]

end NEXT

namespace NEXT

/-- C10: sub-second noninterference of the Feature Encoder.  If two start
times fall in the same UTC calendar second (equal floor-division by 1000),
their fractional hours agree; hence two records that agree on the four
fields the pipeline reads, except that `transfer_start_ms` differs only
within one second, have identical feature vectors, and swapping one for
the other anywhere in a batch leaves every cluster label unchanged. -/
theorem subsecond_noninterference_c10 (r₁ r₂ : TransferRecord)
    (pre post : List (String × TransferRecord)) (rid : String)
    (eps : ℝ) (m : ℤ)
    (hsec : r₁.transfer_start_ms / 1000 = r₂.transfer_start_ms / 1000)
    (hfl : r₁.file_len = r₂.file_len)
    (hed : r₁.ext_danger = r₂.ext_danger)
    (hds : r₁.transfer_delta_s = r₂.transfer_delta_s) :
    hour_fraction_from_epoch_ms r₁.transfer_start_ms
      = hour_fraction_from_epoch_ms r₂.transfer_start_ms ∧
    encode r₁ = encode r₂ ∧
    pipelineLabels (pre ++ (rid, r₁) :: post) eps m
      = pipelineLabels (pre ++ (rid, r₂) :: post) eps m := by
  have hhf : hour_fraction_from_epoch_ms r₁.transfer_start_ms
      = hour_fraction_from_epoch_ms r₂.transfer_start_ms := by
    unfold hour_fraction_from_epoch_ms
    rw [hsec]
  have henc : encode r₁ = encode r₂ := by
    unfold encode encodeFour usedFields
    rw [hfl, hed, hds, hhf]
  refine ⟨hhf, henc, ?_⟩
  unfold pipelineLabels
  have hmap : (pre ++ (rid, r₁) :: post).map (fun p => encode p.2)
      = (pre ++ (rid, r₂) :: post).map (fun p => encode p.2) := by
    simp only [List.map_append, List.map_cons]
    rw [henc]
  rw [hmap]

/-- C10 witness: `recA` and `recB` differ only in the millisecond part of
`transfer_start_ms` (1000 ms and 1999 ms, both in UTC second 1), and the
theorem yields equal fractional hours and equal feature vectors. -/
theorem subsecond_noninterference_c10_witness :
    recA.transfer_start_ms / 1000 = recB.transfer_start_ms / 1000 ∧
    hour_fraction_from_epoch_ms recA.transfer_start_ms
      = hour_fraction_from_epoch_ms recB.transfer_start_ms ∧
    encode recA = encode recB := by
  have h := subsecond_noninterference_c10 recA recB [] [] "ID-1" 1 1
    (by decide) rfl rfl rfl
  exact ⟨by decide, h.1, h.2.1⟩

end NEXT

namespace NEXT

section SingletonBatch

variable {α : Type} [LinearOrderedCommRing α] {n d : ℕ}

theorem self_mem_reachSet (eps : α) (m : ℤ) (X : Fin n → Fin d → α)
    (c : Fin n) : c ∈ reachSet eps m X c := by
  unfold reachSet
  have h : ∀ k, c ∈ (coreStep eps m X)^[k] {c} := by
    intro k
    induction k with
    | zero => simp
    | succ k ih =>
      rw [Function.iterate_succ_apply']
      unfold coreStep
      exact Finset.mem_union_left _ ih
  exact h n

theorem dbscanLabel_fin_one (eps : α) (X : Fin 1 → Fin d → α) (i : Fin 1) :
    dbscanLabel eps 1 X i = some 0 := by
  have hi : i = 0 := Subsingleton.elim i 0
  subst hi
  have hcore : isCore eps 1 X 0 := by
    unfold isCore
    have hpos : 0 < (nbhd eps X 0).card :=
      Finset.card_pos.mpr ⟨0, mem_nbhd_self eps X 0⟩
    omega
  have hadj : adjCores eps 1 X 0 = {0} := by
    apply Finset.Subset.antisymm
    · intro c _
      simp [Subsingleton.elim c 0]
    · intro c hc
      rw [Finset.mem_singleton] at hc
      subst hc
      exact Finset.mem_filter.mpr ⟨Finset.mem_univ _, hcore,
        mem_nbhd_self _ _ _⟩
  have hreach : reachSet eps 1 X 0 = {0} := by
    apply Finset.Subset.antisymm
    · intro c _
      simp [Subsingleton.elim c 0]
    · intro c hc
      rw [Finset.mem_singleton] at hc
      subst hc
      exact self_mem_reachSet eps 1 X 0
  have hhead : headOf eps 1 X 0 = 0 := by
    unfold headOf
    rw [hreach, Finset.min_singleton]
    rfl
  have hcid : clusterId eps 1 X 0 = 0 := by
    unfold clusterId
    rw [hhead]
    have hempty : (((Finset.univ.filter (isCore eps 1 X)).image
        (headOf eps 1 X)).filter (fun h => h < (0 : Fin 1))) = ∅ := by
      apply Finset.filter_false_of_mem
      intro x _
      exact Fin.not_lt_zero x
    rw [hempty, Finset.card_empty]
  simp [dbscanLabel, hadj, Finset.image_singleton, Finset.min'_singleton,
    hcid]

end SingletonBatch

/-- C3 counterexample: the pipeline never rejects a record.  `badRec`
violates every declared range (`ext_danger = 2 > 1`, `success = 7` not in
0/1, `transfer_finish_ms < transfer_start_ms`), yet the pipeline encodes
and clusters it with no failure and no flag: the run on the one-record
batch containing it succeeds and assigns it cluster label 0. -/
theorem schema_rejection_c3_cex :
    1 < badRec.ext_danger ∧
    badRec.success ≠ 0 ∧ badRec.success ≠ 1 ∧
    badRec.transfer_finish_ms < badRec.transfer_start_ms ∧
    pipelineLabels [("ID-1", badRec)] 1 1 = [some 0] := by
  refine ⟨by norm_num [badRec], by decide, by decide, by decide, ?_⟩
  unfold pipelineLabels labelsOfEncoded
  rw [show ([("ID-1", badRec)].map (fun q => encode q.2))
    = [encode badRec] from rfl]
  rw [List.ofFn_succ, List.ofFn_zero]
  rw [dbscanLabel_fin_one]

/-- C3 (amended): the pipeline performs no schema validation.  Every input
record is encoded and clustered — the output has exactly one label per
input record, nothing is excluded or flagged — and the labels depend only
on the four fields `file_len`, `ext_danger`, `transfer_delta_s`,
`transfer_start_ms`; any values of the remaining fields, including
range-violating `success` or `transfer_finish_ms`, are silently accepted
and never consulted. -/
theorem schema_no_validation_c3 (input input' : List (String × TransferRecord))
    (eps : ℝ) (m : ℤ)
    (h : input.map (fun p => usedFields p.2)
      = input'.map (fun p => usedFields p.2)) :
    pipelineLabels input eps m = pipelineLabels input' eps m ∧
    (pipelineLabels input eps m).length = input.length := by
  have hfac : ∀ (l : List (String × TransferRecord)),
      l.map (fun p => encode p.2)
        = (l.map (fun p => usedFields p.2)).map encodeFour := by
    intro l
    rw [List.map_map]
    rfl
  have hE : input.map (fun p => encode p.2)
      = input'.map (fun p => encode p.2) := by
    rw [hfac, hfac, h]
  refine ⟨?_, ?_⟩
  · unfold pipelineLabels
    rw [hE]
  · simp [pipelineLabels, labelsOfEncoded]

/-- C3 witness: `recA` (well-formed) and `recC` (same four used fields,
`success = 7`, `finish < start`) agree on `usedFields`, so the amended
theorem applies and both one-record batches get identical labels of full
length. -/
theorem schema_no_validation_c3_witness :
    [("ID-1", recA)].map (fun p => usedFields p.2)
      = [("ID-1", recC)].map (fun p => usedFields p.2) ∧
    (pipelineLabels [("ID-1", recA)] 1 1
        = pipelineLabels [("ID-1", recC)] 1 1 ∧
      (pipelineLabels [("ID-1", recA)] 1 1).length = 1) :=
  ⟨rfl, schema_no_validation_c3 [("ID-1", recA)] [("ID-1", recC)] 1 1 rfl⟩

/-- C7: pipeline determinism and input immutability.  Re-running the full
pipeline on equal inputs with equal parameters produces the identical
record-to-label pairing, and a run returns the input collection unchanged
(paired positionally with labels): the pipeline is a pure function that
never mutates its input. -/
theorem pipeline_determinism_c7 (input input' : List (String × TransferRecord))
    (eps eps' : ℝ) (m m' : ℤ) :
    (input = input' → eps = eps' → m = m' →
      pipelineRun input eps m = pipelineRun input' eps' m') ∧
    (pipelineRun input eps m).map Prod.fst = input := by
  constructor
  · intro h1 h2 h3
    rw [h1, h2, h3]
  · unfold pipelineRun
    apply List.map_fst_zip
    have hlen : (pipelineLabels input eps m).length = input.length := by
      simp [pipelineLabels, labelsOfEncoded]
    exact le_of_eq hlen.symm

/-- C7 witness: two runs on the same concrete one-record input coincide,
and the run returns the input entry unchanged. -/
theorem pipeline_determinism_c7_witness :
    pipelineRun [("ID-1", recA)] 1 1 = pipelineRun [("ID-1", recA)] 1 1 ∧
    (pipelineRun [("ID-1", recA)] 1 1).map Prod.fst = [("ID-1", recA)] :=
  ⟨(pipeline_determinism_c7 [("ID-1", recA)] [("ID-1", recA)] 1 1 1 1).1
      rfl rfl rfl,
    (pipeline_determinism_c7 [("ID-1", recA)] [("ID-1", recA)] 1 1 1 1).2⟩

end NEXT

namespace NEXT

section GeneratorLemmas

theorem danger_for_extension_mem (ext : String) :
    0 ≤ danger_for_extension ext ∧ danger_for_extension ext ≤ 1 := by
  unfold danger_for_extension
  constructor
  · exact le_max_left 0 _
  · exact max_le (by norm_num) (min_le_left 1 _)

theorem record_from_times_conforms (ext : String) (fl s f succ : ℤ)
    (hsf : s ≤ f) (hsucc : succ = 0 ∨ succ = 1) :
    conformsSchema (record_from_times ext fl s f succ) := by
  unfold conformsSchema record_from_times
  exact ⟨(danger_for_extension_mem ext).1, (danger_for_extension_mem ext).2,
    hsucc, hsf, rfl⟩

theorem normalRecord_conforms (dr : NormalDraw) (h : validNormalDraw dr) :
    conformsSchema (normalRecord dr) := by
  obtain ⟨-, -, -, -, -, -, hdur, -⟩ := h
  unfold normalRecord
  apply record_from_times_conforms
  · omega
  · by_cases hs : dr.succ <;> simp [hs]

theorem outlierRecord_conforms (dr : OutlierDraw) (h : validOutlierDraw dr) :
    conformsSchema (outlierRecord dr) := by
  obtain ⟨-, -, -, -, -, -, hdur, -⟩ := h
  unfold outlierRecord
  apply record_from_times_conforms
  · omega
  · by_cases hs : dr.succ <;> simp [hs]

end GeneratorLemmas

/-- C9: producer schema conformance.  Whatever the random draws of its two
loops are (within the ranges their `randint` calls guarantee), every
record returned by `generate_mock_data` satisfies the schema of spec
section 3: `ext_danger` is in [0, 1], `success` is 0 or 1,
`transfer_finish_ms ≥ transfer_start_ms`, and `transfer_delta_s` equals
`(finish_ms - start_ms) / 1000` exactly. -/
theorem producer_conformance_c9 (nds : List NormalDraw)
    (ods : List OutlierDraw)
    (hn : ∀ dr ∈ nds, validNormalDraw dr)
    (ho : ∀ dr ∈ ods, validOutlierDraw dr) :
    ∀ r ∈ generate_mock_data nds ods, conformsSchema r := by
  intro r hr
  rcases List.mem_append.mp hr with h | h
  · obtain ⟨dr, hdr, rfl⟩ := List.mem_map.mp h
    exact normalRecord_conforms dr (hn dr hdr)
  · obtain ⟨dr, hdr, rfl⟩ := List.mem_map.mp h
    exact outlierRecord_conforms dr (ho dr hdr)

/-- C9 witness: one concrete valid draw per loop; the two generated
records conform to the schema by the theorem. -/
theorem producer_conformance_c9_witness :
    validNormalDraw drN ∧ validOutlierDraw drO ∧
    conformsSchema (normalRecord drN) ∧
    conformsSchema (outlierRecord drO) := by
  have h := producer_conformance_c9 [drN] [drO] (by decide) (by decide)
  refine ⟨by decide, by decide, h (normalRecord drN) ?_,
    h (outlierRecord drO) ?_⟩
  · simp [generate_mock_data]
  · simp [generate_mock_data]

end NEXT
